import Mathlib

/-!
Verification of the diff-chunk filtering core of AutoReviewBot (`reviewer.py`).

The Python source is embedded shallowly over `List Char`:
  * `pyStrip`, `splitlines`, `pySplit`, `pyStartsWith`, `pyEndsWith`,
    `pyContains` model the Python string operations used by the source
    (`str.strip()`, `str.splitlines()`, `str.split()`, `str.startswith`,
    `str.endswith`, the `in` operator).  Line splitting and stripping are
    modelled on the ASCII whitespace / `\n` terminators: the tool's
    interface contract guarantees UTF-8 text line-terminated by `\n`, and
    no claim exercises the additional Unicode terminators Python accepts.
  * `filter_excluded_files` embeds the function of the same name
    (reviewer.py lines 96-145); its scan loop becomes the structurally
    recursive `filterLinesGo` whose state (`kept`, `cur`, `skip`) mirrors
    the Python locals `kept_chunks`, `current_chunk_lines`,
    `skip_current_chunk`, with `finalize` embedding `finalize_chunk`.
  * `decisionExitCode` embeds the decision logic of `main`
    (reviewer.py lines 227-244) as a pure function of the filtered diff
    and the verdict text returned by the review call.
  * A second embedding `filterE` models the same scan under Python's
    dynamic typing: suffix-list entries are `PyVal`s (strings or a
    non-string), `str.endswith` on a non-string raises `TypeError`, and
    list indexing out of range raises `IndexError`; the result is an
    `Except PyError` value.  This makes reachability of runtime errors a
    provable question.
  * `chunksOf` is the specification-side chunk decomposition (a chunk is
    a header line together with the following non-header lines), used to
    state the refinement claims; it is not part of the source.
-/

namespace Reviewer

/-- Python strings are modelled as lists of characters. -/
abbrev Str := List Char

/-- The ASCII whitespace characters recognised by `str.strip()` /
`str.split()`.  (Python additionally strips some Unicode whitespace,
which no claim exercises.) -/
def isSpace (c : Char) : Bool :=
  c = ' ' || c = '\t' || c = '\n' || c = '\r' || c = '\x0b' || c = '\x0c'

/-- Python `s.strip()`: remove leading and trailing whitespace. -/
def pyStrip (s : Str) : Str :=
  ((s.dropWhile isSpace).reverse.dropWhile isSpace).reverse

/-- Python `s.startswith(p)`. -/
def pyStartsWith (s p : Str) : Bool :=
  s.take p.length = p

/-- Python `s.endswith(p)`: exact, case-sensitive trailing-substring
match. -/
def pyEndsWith (s p : Str) : Bool :=
  decide (p.length ≤ s.length) && decide (s.drop (s.length - p.length) = p)

/-- Python `p in s` (substring containment). -/
def pyContains (s p : Str) : Bool :=
  match s with
  | [] => pyStartsWith [] p
  | _ :: rest => pyStartsWith s p || pyContains rest p

/-- Worker for `splitlines`: `acc` is the (partial) current line. -/
def splitlinesGo (acc : Str) : Str → List Str
  | [] => [acc]
  | c :: rest =>
    if c = '\n' then
      match rest with
      | [] => [acc]
      | _ :: _ => acc :: splitlinesGo [] rest
    else splitlinesGo (acc ++ [c]) rest

/-- Python `s.splitlines()` restricted to the `\n` terminator: the empty
string yields no lines, and a trailing `\n` does not open an empty final
line. -/
def splitlines : Str → List Str
  | [] => []
  | c :: cs => splitlinesGo [] (c :: cs)

/-- Worker for `pySplit`: `cur` is the (partial) current token. -/
def pySplitGo (cur : Str) : Str → List Str
  | [] => if cur = [] then [] else [cur]
  | c :: rest =>
    if isSpace c then (if cur = [] then [] else [cur]) ++ pySplitGo [] rest
    else pySplitGo (cur ++ [c]) rest

/-- Python `s.split()` (no separator): split on runs of whitespace,
producing no empty tokens. -/
def pySplit (s : Str) : List Str :=
  pySplitGo [] s

/-- The header literal `"diff --git "` (reviewer.py line 109). -/
def headerLit : Str := ("diff --git ").data

/-- `line.startswith(diff_header_prefix)` (reviewer.py line 117). -/
def isHeader (line : Str) : Bool :=
  pyStartsWith line headerLit

/-- The header test of reviewer.py lines 124-133: split the header line
on whitespace; with at least 4 tokens, strip the two-character `a/` /
`b/` markers from tokens 3 and 4 and test each against the excluded
suffixes (first match wins); with fewer than 4 tokens the chunk is not
skipped. -/
def headerSkips (excluded_exts : List Str) (line : Str) : Bool :=
  if 4 ≤ (pySplit line).length then
    excluded_exts.any (fun ext =>
      pyEndsWith (((pySplit line).getD 2 []).drop 2) ext
      || pyEndsWith (((pySplit line).getD 3 []).drop 2) ext)
  else false

/-- `finalize_chunk` (reviewer.py lines 111-114): keep the current chunk
unless the skip flag is set or the chunk is empty. -/
def finalize (kept cur : List Str) (skip : Bool) : List Str :=
  if skip = false ∧ cur ≠ [] then kept ++ cur else kept

/-- The scan loop of reviewer.py lines 116-142, as a structural recursion
over the remaining lines carrying the loop state. -/
def filterLinesGo (excluded_exts : List Str) (kept cur : List Str) (skip : Bool) :
    List Str → List Str
  | [] => finalize kept cur skip
  | l :: ls =>
    if isHeader l then
      filterLinesGo excluded_exts (finalize kept cur skip) [l]
        (headerSkips excluded_exts l) ls
    else filterLinesGo excluded_exts kept (cur ++ [l]) skip ls

/-- The kept lines produced by the scan loop, started from the initial
state of reviewer.py lines 105-107. -/
def filterLines (excluded_exts : List Str) (lines : List Str) : List Str :=
  filterLinesGo excluded_exts [] [] false lines

/-- Python `"\n".join(ls)`. -/
def joinNL : List Str → Str
  | [] => []
  | [l] => l
  | l :: l2 :: ls => l ++ '\n' :: joinNL (l2 :: ls)

/-- `filter_excluded_files` (reviewer.py lines 96-145): return
whitespace-only input unchanged, otherwise rejoin the kept lines with
`\n` and append one final `\n`. -/
def filter_excluded_files (diff : Str) (excluded_exts : List Str) : Str :=
  if pyStrip diff = [] then diff
  else joinNL (filterLines excluded_exts (splitlines diff)) ++ ['\n']

/-- The verdict sentinel `"APPROVED"` (reviewer.py line 239). -/
def approvedLit : Str := ("APPROVED").data

/-- The decision logic of `main` (reviewer.py lines 227-244) as a pure
function of the filtered diff and the verdict text: exit 0 when the
filtered diff strips to nothing, exit 0 when the verdict contains
`APPROVED`, exit 1 otherwise. -/
def decisionExitCode (filteredDiff feedback : Str) : Nat :=
  if pyStrip filteredDiff = [] then 0
  else if pyContains feedback approvedLit then 0
  else 1

/-- Specification-side chunk decomposition, worker: `cur` is the chunk
being accumulated (reversed nowhere: lines are appended in order). -/
def chunksGo (cur : List Str) : List Str → List (List Str)
  | [] => [cur]
  | l :: ls =>
    if isHeader l then cur :: chunksGo [l] ls
    else chunksGo (cur ++ [l]) ls

/-- Specification-side chunk decomposition: each chunk is one line
together with the following non-header lines.  Applied to a line list
starting with a header line, this is exactly the spec's partition of a
diff into file chunks. -/
def chunksOf : List Str → List (List Str)
  | [] => []
  | l :: ls => chunksGo [l] ls

/-- A chunk is excluded exactly when its header line makes the scan set
the skip flag. -/
def excludedChunk (excluded_exts : List Str) (c : List Str) : Bool :=
  match c with
  | [] => false
  | h :: _ => headerSkips excluded_exts h

/-- A Python value passed as a suffix-list entry: a string, or some
non-string value (whose identity is irrelevant to control flow). -/
inductive PyVal where
  | str : Str → PyVal
  | nonStr : PyVal
deriving DecidableEq

/-- The runtime errors reachable from the scan under dynamic typing. -/
inductive PyError where
  | typeError : PyError
  | indexError : PyError
deriving DecidableEq

/-- `file.endswith(ext)` under dynamic typing: a non-string argument
raises `TypeError`. -/
def endswithE (s : Str) : PyVal → Except PyError Bool
  | PyVal.str t => Except.ok (pyEndsWith s t)
  | PyVal.nonStr => Except.error PyError.typeError

/-- The suffix loop of reviewer.py lines 130-133 under dynamic typing:
`or` is short-circuit, and `break` stops at the first match. -/
def scanExts (file_a file_b : Str) : List PyVal → Except PyError Bool
  | [] => Except.ok false
  | ext :: rest => do
    let a ← endswithE file_a ext
    if a then pure true
    else do
      let b ← endswithE file_b ext
      if b then pure true else scanExts file_a file_b rest

/-- Python list indexing: out of range raises `IndexError`. -/
def indexE (l : List Str) (i : Nat) : Except PyError Str :=
  match l.get? i with
  | some x => Except.ok x
  | none => Except.error PyError.indexError

/-- The header test (reviewer.py lines 124-133) under dynamic typing. -/
def headerSkipsE (excluded_exts : List PyVal) (line : Str) : Except PyError Bool :=
  if 4 ≤ (pySplit line).length then do
    let pa ← indexE (pySplit line) 2
    let pb ← indexE (pySplit line) 3
    scanExts (pa.drop 2) (pb.drop 2) excluded_exts
  else pure false

/-- The scan loop under dynamic typing. -/
def filterLinesEGo (excluded_exts : List PyVal) (kept cur : List Str) (skip : Bool) :
    List Str → Except PyError (List Str)
  | [] => Except.ok (finalize kept cur skip)
  | l :: ls =>
    if isHeader l then do
      let sk ← headerSkipsE excluded_exts l
      filterLinesEGo excluded_exts (finalize kept cur skip) [l] sk ls
    else filterLinesEGo excluded_exts kept (cur ++ [l]) skip ls

/-- `filter_excluded_files` under dynamic typing. -/
def filterE (diff : Str) (excluded_exts : List PyVal) : Except PyError Str :=
  if pyStrip diff = [] then Except.ok diff
  else do
    let kept ← filterLinesEGo excluded_exts [] [] false (splitlines diff)
    pure (joinNL kept ++ ['\n'])

/-- Negation of `isHeader`, the predicate describing lines that do not
open a new chunk. -/
def nonHeader (l : Str) : Bool := !(isHeader l)

/- ### Helper lemmas about list scanning -/

theorem takeWhile_append_all {α : Type} (p : α → Bool) (l₁ l₂ : List α)
    (h : ∀ x ∈ l₁, p x = true) :
    (l₁ ++ l₂).takeWhile p = l₁ ++ l₂.takeWhile p := by
  induction l₁ with
  | nil => simp
  | cons a l ih =>
    have ha : p a = true := h a (List.mem_cons_self a l)
    simp only [List.cons_append, List.takeWhile_cons, ha, if_true]
    rw [ih (fun x hx => h x (List.mem_cons_of_mem a hx))]

theorem dropWhile_append_all {α : Type} (p : α → Bool) (l₁ l₂ : List α)
    (h : ∀ x ∈ l₁, p x = true) :
    (l₁ ++ l₂).dropWhile p = l₂.dropWhile p := by
  induction l₁ with
  | nil => simp
  | cons a l ih =>
    have ha : p a = true := h a (List.mem_cons_self a l)
    simp only [List.cons_append, List.dropWhile_cons, ha, if_true]
    exact ih (fun x hx => h x (List.mem_cons_of_mem a hx))

theorem dropWhile_head_false {α : Type} (p : α → Bool) (l : List α) (x : α)
    (xs : List α) (h : l.dropWhile p = x :: xs) : p x = false := by
  induction l with
  | nil => simp at h
  | cons a l ih =>
    by_cases ha : p a = true
    · rw [List.dropWhile_cons, if_pos ha] at h
      exact ih h
    · rw [List.dropWhile_cons, if_neg ha] at h
      cases h
      exact Bool.eq_false_iff.mpr ha

theorem mem_dropWhile_or {α : Type} (p : α → Bool) (l : List α) :
    ∀ c ∈ l, c ∈ l.dropWhile p ∨ p c = true := by
  induction l with
  | nil => intro c hc; simp at hc
  | cons a l ih =>
    intro c hc
    by_cases ha : p a = true
    · rw [List.dropWhile_cons, if_pos ha]
      rcases List.mem_cons.mp hc with rfl | hc'
      · exact Or.inr ha
      · exact ih c hc'
    · rw [List.dropWhile_cons, if_neg ha]
      exact Or.inl hc

/- ### Characterizations of the Python string operations -/

/-- A line starts with `p` exactly when it is `p` followed by a
remainder. -/
theorem pyStartsWith_iff (s p : Str) :
    pyStartsWith s p = true ↔ ∃ r, s = p ++ r := by
  simp only [pyStartsWith, decide_eq_true_eq]
  constructor
  · intro h
    refine ⟨s.drop p.length, ?_⟩
    have hs := List.take_append_drop p.length s
    rw [h] at hs
    exact hs.symm
  · rintro ⟨r, rfl⟩
    exact List.take_left p r

/-- `endswith` is exactly the trailing-substring relation. -/
theorem pyEndsWith_iff (s p : Str) :
    pyEndsWith s p = true ↔ ∃ q, s = q ++ p := by
  simp only [pyEndsWith, Bool.and_eq_true, decide_eq_true_eq]
  constructor
  · rintro ⟨hle, hdrop⟩
    refine ⟨s.take (s.length - p.length), ?_⟩
    have hs := List.take_append_drop (s.length - p.length) s
    rw [hdrop] at hs
    exact hs.symm
  · rintro ⟨q, rfl⟩
    have hlen : (q ++ p).length = q.length + p.length := List.length_append q p
    constructor
    · omega
    · have hq : (q ++ p).length - p.length = q.length := by omega
      rw [hq]
      exact List.drop_left q p

/-- The `in` operator is exactly substring containment. -/
theorem pyContains_iff (s p : Str) :
    pyContains s p = true ↔ ∃ q r, s = q ++ p ++ r := by
  induction s with
  | nil =>
    simp only [pyContains, pyStartsWith, decide_eq_true_eq, List.take_nil]
    constructor
    · intro h
      exact ⟨[], [], by simp [← h]⟩
    · rintro ⟨q, r, h⟩
      have h1 := List.append_eq_nil.mp h.symm
      have h2 := List.append_eq_nil.mp h1.1
      simp [h2.2]
  | cons c rest ih =>
    simp only [pyContains, Bool.or_eq_true]
    constructor
    · rintro (h | h)
      · obtain ⟨r, hr⟩ := (pyStartsWith_iff (c :: rest) p).mp h
        exact ⟨[], r, by simpa using hr⟩
      · obtain ⟨q, r, hr⟩ := ih.mp h
        exact ⟨c :: q, r, by simp [hr]⟩
    · rintro ⟨q, r, hqr⟩
      cases q with
      | nil =>
        left
        exact (pyStartsWith_iff (c :: rest) p).mpr ⟨r, by simpa using hqr⟩
      | cons c' q' =>
        right
        rw [List.cons_append, List.cons_append] at hqr
        cases hqr
        exact ih.mpr ⟨q', r, rfl⟩

/-- `strip` yields the empty string exactly on whitespace-only input. -/
theorem pyStrip_eq_nil_iff (s : Str) :
    pyStrip s = [] ↔ ∀ c ∈ s, isSpace c = true := by
  unfold pyStrip
  constructor
  · intro h c hc
    rw [List.reverse_eq_nil_iff, List.dropWhile_eq_nil_iff] at h
    rcases mem_dropWhile_or isSpace s c hc with hc' | hsp
    · exact h c (List.mem_reverse.mpr hc')
    · exact hsp
  · intro h
    have h1 : s.dropWhile isSpace = [] :=
      List.dropWhile_eq_nil_iff.mpr h
    rw [h1]
    simp

/- ### Lemmas about line splitting and joining -/

theorem splitlinesGo_nil (acc : Str) : splitlinesGo acc [] = [acc] := rfl

theorem splitlinesGo_nl_nil (acc : Str) : splitlinesGo acc ['\n'] = [acc] := rfl

theorem splitlinesGo_nl_cons (acc : Str) (x : Char) (s : Str) :
    splitlinesGo acc ('\n' :: x :: s) = acc :: splitlinesGo [] (x :: s) := rfl

theorem splitlinesGo_cons_ne (acc : Str) (c : Char) (s : Str) (h : ¬(c = '\n')) :
    splitlinesGo acc (c :: s) = splitlinesGo (acc ++ [c]) s := by
  simp only [splitlinesGo]
  rw [if_neg h]

theorem splitlinesGo_append (l : Str) :
    ∀ (acc s : Str), (∀ c ∈ l, ¬(c = '\n')) →
      splitlinesGo acc (l ++ s) = splitlinesGo (acc ++ l) s := by
  induction l with
  | nil => intro acc s _; simp
  | cons c l' ih =>
    intro acc s h
    have hc : ¬(c = '\n') := h c (List.mem_cons_self c l')
    rw [List.cons_append, splitlinesGo_cons_ne _ _ _ hc,
      ih (acc ++ [c]) s (fun x hx => h x (List.mem_cons_of_mem c hx))]
    simp

theorem splitlines_append (l s : Str) (h : ∀ c ∈ l, ¬(c = '\n')) :
    splitlines (l ++ '\n' :: s) = l :: splitlines s := by
  have hgo : splitlinesGo [] (l ++ '\n' :: s) = splitlinesGo l ('\n' :: s) := by
    simpa using splitlinesGo_append l [] ('\n' :: s) h
  have hmain : splitlines (l ++ '\n' :: s) = splitlinesGo [] (l ++ '\n' :: s) := by
    cases l with
    | nil => rfl
    | cons a l' => rfl
  rw [hmain, hgo]
  cases s with
  | nil => rfl
  | cons x s' => rfl

theorem splitlines_no_nl (s : Str) (hne : s ≠ []) (h : ∀ c ∈ s, ¬(c = '\n')) :
    splitlines s = [s] := by
  cases s with
  | nil => exact absurd rfl hne
  | cons c cs =>
    have : splitlines (c :: cs) = splitlinesGo [] (c :: cs) := rfl
    rw [this]
    have := splitlinesGo_append (c :: cs) [] [] h
    simpa using this

theorem splitlinesGo_mem_chars :
    ∀ (s acc l : Str), l ∈ splitlinesGo acc s → ∀ c ∈ l, c ∈ acc ∨ c ∈ s := by
  intro s
  induction s with
  | nil =>
    intro acc l hl c hc
    rw [splitlinesGo_nil, List.mem_singleton] at hl
    subst hl
    exact Or.inl hc
  | cons c0 rest ih =>
    intro acc l hl c hc
    by_cases hc0 : c0 = '\n'
    · subst hc0
      cases rest with
      | nil =>
        rw [splitlinesGo_nl_nil, List.mem_singleton] at hl
        subst hl
        exact Or.inl hc
      | cons x s' =>
        rw [splitlinesGo_nl_cons] at hl
        rcases List.mem_cons.mp hl with rfl | hl'
        · exact Or.inl hc
        · rcases ih [] l hl' c hc with h0 | h0
          · simp at h0
          · exact Or.inr (List.mem_cons_of_mem _ h0)
    · rw [splitlinesGo_cons_ne _ _ _ hc0] at hl
      rcases ih (acc ++ [c0]) l hl c hc with h0 | h0
      · rcases List.mem_append.mp h0 with h1 | h1
        · exact Or.inl h1
        · simp only [List.mem_singleton] at h1
          subst h1
          exact Or.inr (List.mem_cons_self _ _)
      · exact Or.inr (List.mem_cons_of_mem _ h0)

theorem splitlines_mem_chars (s l : Str) (hl : l ∈ splitlines s) :
    ∀ c ∈ l, c ∈ s := by
  cases s with
  | nil => simp [splitlines] at hl
  | cons c0 cs =>
    intro c hc
    rcases splitlinesGo_mem_chars (c0 :: cs) [] l hl c hc with h | h
    · simp at h
    · exact h

theorem splitlinesGo_no_nl :
    ∀ (s acc : Str), ¬('\n' ∈ acc) → ∀ l ∈ splitlinesGo acc s, ¬('\n' ∈ l) := by
  intro s
  induction s with
  | nil =>
    intro acc hacc l hl
    rw [splitlinesGo_nil, List.mem_singleton] at hl
    subst hl
    exact hacc
  | cons c0 rest ih =>
    intro acc hacc l hl
    by_cases hc0 : c0 = '\n'
    · subst hc0
      cases rest with
      | nil =>
        rw [splitlinesGo_nl_nil, List.mem_singleton] at hl
        subst hl
        exact hacc
      | cons x s' =>
        rw [splitlinesGo_nl_cons] at hl
        rcases List.mem_cons.mp hl with rfl | hl'
        · exact hacc
        · exact ih [] (by simp) l hl'
    · rw [splitlinesGo_cons_ne _ _ _ hc0] at hl
      refine ih (acc ++ [c0]) ?_ l hl
      intro hmem
      rcases List.mem_append.mp hmem with h1 | h1
      · exact hacc h1
      · simp only [List.mem_singleton] at h1
        exact hc0 h1.symm

theorem splitlines_mem_no_nl (s l : Str) (hl : l ∈ splitlines s) : ¬('\n' ∈ l) := by
  cases s with
  | nil => simp [splitlines] at hl
  | cons c0 cs => exact splitlinesGo_no_nl (c0 :: cs) [] (by simp) l hl

theorem splitlines_joinNL :
    ∀ (ls : List Str), ls ≠ [] → (∀ l ∈ ls, ¬('\n' ∈ l)) →
      splitlines (joinNL ls ++ ['\n']) = ls := by
  intro ls
  induction ls with
  | nil => intro h; exact absurd rfl h
  | cons l ls' ih =>
    intro _ hnl
    have hl : ∀ c ∈ l, ¬(c = '\n') := by
      intro c hc hceq
      exact hnl l (List.mem_cons_self l ls') (hceq ▸ hc)
    cases ls' with
    | nil =>
      show splitlines (joinNL [l] ++ ['\n']) = [l]
      have : joinNL [l] ++ ['\n'] = l ++ '\n' :: [] := rfl
      rw [this, splitlines_append l [] hl]
      rfl
    | cons l2 ls'' =>
      have hstep : joinNL (l :: l2 :: ls'') ++ ['\n']
          = l ++ '\n' :: (joinNL (l2 :: ls'') ++ ['\n']) := by
        show (l ++ '\n' :: joinNL (l2 :: ls'')) ++ ['\n'] = _
        simp
      rw [hstep, splitlines_append l _ hl,
        ih (by simp) (fun x hx => hnl x (List.mem_cons_of_mem l hx))]

/- ### Lemmas about the chunk decomposition -/

theorem chunksGo_nil (cur : List Str) : chunksGo cur [] = [cur] := rfl

theorem chunksGo_header (cur : List Str) (l : Str) (ls : List Str)
    (h : isHeader l = true) : chunksGo cur (l :: ls) = cur :: chunksGo [l] ls := by
  simp only [chunksGo]
  rw [if_pos h]

theorem chunksGo_body (cur : List Str) (l : Str) (ls : List Str)
    (h : isHeader l = false) : chunksGo cur (l :: ls) = chunksGo (cur ++ [l]) ls := by
  simp only [chunksGo]
  rw [if_neg (by simp [h])]

theorem chunksGo_append_body (b : List Str) :
    ∀ (cur : List (List Char)) (ls : List Str), (∀ x ∈ b, isHeader x = false) →
      chunksGo cur (b ++ ls) = chunksGo (cur ++ b) ls := by
  induction b with
  | nil => intro cur ls _; simp
  | cons x b' ih =>
    intro cur ls h
    have hx := h x (List.mem_cons_self x b')
    rw [List.cons_append, chunksGo_body _ _ _ hx,
      ih _ _ (fun y hy => h y (List.mem_cons_of_mem x hy))]
    simp

theorem chunksOf_cons (l : Str) (ls : List Str) :
    chunksOf (l :: ls)
      = (l :: ls.takeWhile nonHeader) :: chunksOf (ls.dropWhile nonHeader) := by
  have hb : ∀ x ∈ ls.takeWhile nonHeader, isHeader x = false := by
    intro x hx
    have := List.mem_takeWhile_imp hx
    simpa [nonHeader] using this
  have h0 : chunksOf (l :: ls) = chunksGo [l] ls := rfl
  rw [h0]
  conv_lhs => rw [← List.takeWhile_append_dropWhile nonHeader ls]
  rw [chunksGo_append_body _ _ _ hb]
  cases hdw : ls.dropWhile nonHeader with
  | nil => simp [chunksGo_nil, chunksOf]
  | cons h1 rest =>
    have hh1 : isHeader h1 = true := by
      have := dropWhile_head_false nonHeader ls h1 rest hdw
      simpa [nonHeader] using this
    rw [chunksGo_header _ _ _ hh1]
    rfl

theorem chunksGo_join (ls : List Str) :
    ∀ cur, (chunksGo cur ls).join = cur ++ ls := by
  induction ls with
  | nil => intro cur; simp [chunksGo_nil]
  | cons l ls' ih =>
    intro cur
    by_cases h : isHeader l = true
    · rw [chunksGo_header _ _ _ h]
      simp [ih [l]]
    · have h' : isHeader l = false := by simpa using h
      rw [chunksGo_body _ _ _ h', ih (cur ++ [l])]
      simp

theorem chunksOf_join (ls : List Str) : (chunksOf ls).join = ls := by
  cases ls with
  | nil => rfl
  | cons l ls' =>
    have h0 : chunksOf (l :: ls') = chunksGo [l] ls' := rfl
    rw [h0]
    simpa using chunksGo_join ls' [l]

/-- A well-formed chunk: a header line followed by non-header lines. -/
def WfChunk (c : List Str) : Prop :=
  ∃ hd bd, c = hd :: bd ∧ isHeader hd = true ∧ ∀ x ∈ bd, isHeader x = false

theorem chunksGo_mem (ls : List Str) :
    ∀ cur c, c ∈ chunksGo cur ls →
      (∃ pre, c = cur ++ pre ∧ ∀ x ∈ pre, isHeader x = false) ∨ WfChunk c := by
  induction ls with
  | nil =>
    intro cur c hc
    rw [chunksGo_nil, List.mem_singleton] at hc
    exact Or.inl ⟨[], by simp [hc], by simp⟩
  | cons l ls' ih =>
    intro cur c hc
    by_cases h : isHeader l = true
    · rw [chunksGo_header _ _ _ h] at hc
      rcases List.mem_cons.mp hc with rfl | hc'
      · exact Or.inl ⟨[], by simp, by simp⟩
      · rcases ih [l] c hc' with ⟨pre, hpre, hall⟩ | hwf
        · exact Or.inr ⟨l, pre, by simpa using hpre, h, hall⟩
        · exact Or.inr hwf
    · have h' : isHeader l = false := by simpa using h
      rw [chunksGo_body _ _ _ h'] at hc
      rcases ih (cur ++ [l]) c hc with ⟨pre, hpre, hall⟩ | hwf
      · refine Or.inl ⟨[l] ++ pre, by simpa [List.append_assoc] using hpre, ?_⟩
        intro x hx
        rcases List.mem_append.mp hx with h1 | h1
        · simp only [List.mem_singleton] at h1
          subst h1
          exact h'
        · exact hall x h1
      · exact Or.inr hwf

theorem chunksOf_mem_wf (l : Str) (ls : List Str) (h : isHeader l = true) :
    ∀ c ∈ chunksOf (l :: ls), WfChunk c := by
  intro c hc
  rcases chunksGo_mem ls [l] c hc with ⟨pre, hpre, hall⟩ | hwf
  · exact ⟨l, pre, by simpa using hpre, h, hall⟩
  · exact hwf

theorem chunksOf_wf_join :
    ∀ (cs : List (List Str)), (∀ c ∈ cs, WfChunk c) → chunksOf cs.join = cs := by
  intro cs
  induction cs with
  | nil => intro _; rfl
  | cons c cs' ih =>
    intro h
    obtain ⟨hd, bd, rfl, hhd, hbd⟩ := h c (List.mem_cons_self c cs')
    have hrest : ∀ c' ∈ cs', WfChunk c' :=
      fun c' hc' => h c' (List.mem_cons_of_mem _ hc')
    have hjoin : ((hd :: bd) :: cs').join = hd :: (bd ++ cs'.join) := by simp
    rw [hjoin]
    have h0 : chunksOf (hd :: (bd ++ cs'.join)) = chunksGo [hd] (bd ++ cs'.join) := rfl
    rw [h0, chunksGo_append_body _ _ _ hbd]
    cases cs' with
    | nil => simp [chunksGo_nil]
    | cons c2 cs'' =>
      obtain ⟨hd2, bd2, rfl, hhd2, hbd2⟩ := hrest c2 (List.mem_cons_self c2 cs'')
      have hjoin2 : ((hd2 :: bd2) :: cs'').join = hd2 :: (bd2 ++ cs''.join) := by simp
      rw [hjoin2, chunksGo_header _ _ _ hhd2]
      have hx := ih hrest
      rw [hjoin2] at hx
      have hconv : chunksOf (hd2 :: (bd2 ++ cs''.join))
          = chunksGo [hd2] (bd2 ++ cs''.join) := rfl
      rw [hconv] at hx
      rw [hx]
      simp

/- ### The closed form of the scan loop -/

theorem filterLinesGo_nil (S : List Str) (kept cur : List Str) (skip : Bool) :
    filterLinesGo S kept cur skip [] = finalize kept cur skip := rfl

theorem filterLinesGo_header (S : List Str) (kept cur : List Str) (skip : Bool)
    (l : Str) (ls : List Str) (h : isHeader l = true) :
    filterLinesGo S kept cur skip (l :: ls)
      = filterLinesGo S (finalize kept cur skip) [l] (headerSkips S l) ls := by
  simp only [filterLinesGo]
  rw [if_pos h]

theorem filterLinesGo_body (S : List Str) (kept cur : List Str) (skip : Bool)
    (l : Str) (ls : List Str) (h : isHeader l = false) :
    filterLinesGo S kept cur skip (l :: ls)
      = filterLinesGo S kept (cur ++ [l]) skip ls := by
  simp only [filterLinesGo]
  rw [if_neg (by simp [h])]

theorem finalize_eq (kept cur : List Str) (skip : Bool) :
    finalize kept cur skip = if skip then kept else kept ++ cur := by
  cases skip with
  | true => simp [finalize]
  | false =>
    by_cases hc : cur = []
    · simp [finalize, hc]
    · simp [finalize, hc]

theorem filterLinesGo_closed (S : List Str) :
    ∀ (ls : List Str) (kept cur : List Str) (skip : Bool),
      filterLinesGo S kept cur skip ls
        = (if skip then kept else kept ++ cur ++ ls.takeWhile nonHeader)
          ++ ((chunksOf (ls.dropWhile nonHeader)).filter
                (fun c => !(excludedChunk S c))).join := by
  intro ls
  induction ls with
  | nil =>
    intro kept cur skip
    rw [filterLinesGo_nil, finalize_eq]
    cases skip <;> simp [chunksOf]
  | cons l ls' ih =>
    intro kept cur skip
    by_cases h : isHeader l = true
    · have hnh : nonHeader l = false := by simp [nonHeader, h]
      have htw : (l :: ls').takeWhile nonHeader = [] := by
        simp [List.takeWhile_cons, hnh]
      have hdw : (l :: ls').dropWhile nonHeader = l :: ls' := by
        simp [List.dropWhile_cons, hnh]
      have hex : excludedChunk S (l :: ls'.takeWhile nonHeader) = headerSkips S l := rfl
      rw [filterLinesGo_header _ _ _ _ _ _ h, ih, htw, hdw, chunksOf_cons,
        List.filter_cons, hex, finalize_eq]
      by_cases hsk : headerSkips S l = true
      · cases skip <;> simp [hsk]
      · have hsk' : headerSkips S l = false := by simpa using hsk
        cases skip <;> simp [hsk', List.append_assoc]
    · have h' : isHeader l = false := by simpa using h
      have hnh : nonHeader l = true := by simp [nonHeader, h']
      have htw : (l :: ls').takeWhile nonHeader = l :: ls'.takeWhile nonHeader := by
        simp [List.takeWhile_cons, hnh]
      have hdw : (l :: ls').dropWhile nonHeader = ls'.dropWhile nonHeader := by
        simp [List.dropWhile_cons, hnh]
      rw [filterLinesGo_body _ _ _ _ _ _ h', ih, htw, hdw]
      cases skip <;> simp [List.append_assoc]

/-- The scan result is the head lines preceding the first header,
followed by the concatenation of the non-excluded chunks. -/
theorem filterLines_eq (S : List Str) (ls : List Str) :
    filterLines S ls
      = ls.takeWhile nonHeader
        ++ ((chunksOf (ls.dropWhile nonHeader)).filter
              (fun c => !(excludedChunk S c))).join := by
  have h := filterLinesGo_closed S ls [] [] false
  simpa [filterLines] using h

theorem filterLines_mem (S : List Str) (ls : List Str) :
    ∀ x ∈ filterLines S ls, x ∈ ls := by
  intro x hx
  rw [filterLines_eq] at hx
  rcases List.mem_append.mp hx with h1 | h1
  · exact (List.takeWhile_sublist nonHeader).mem h1
  · rw [List.mem_join] at h1
    obtain ⟨c, hc, hxc⟩ := h1
    rw [List.mem_filter] at hc
    have hcj : x ∈ (chunksOf (ls.dropWhile nonHeader)).join :=
      List.mem_join.mpr ⟨c, hc.1, hxc⟩
    rw [chunksOf_join] at hcj
    exact (List.dropWhile_sublist nonHeader).mem hcj

theorem filter_idem_list {α : Type} (p : α → Bool) (l : List α) :
    (l.filter p).filter p = l.filter p := by
  rw [List.filter_filter]
  simp

theorem filterLines_wf (S : List Str) (pre : List Str) (cs : List (List Str))
    (hpre : ∀ x ∈ pre, nonHeader x = true) (hcs : ∀ c ∈ cs, WfChunk c) :
    filterLines S (pre ++ cs.join)
      = pre ++ (cs.filter (fun c => !(excludedChunk S c))).join := by
  rw [filterLines_eq, takeWhile_append_all _ _ _ hpre, dropWhile_append_all _ _ _ hpre]
  cases cs with
  | nil => simp [chunksOf]
  | cons c1 cs' =>
    obtain ⟨hd, bd, rfl, hhd, hbd⟩ := hcs c1 (List.mem_cons_self c1 cs')
    have hnh : nonHeader hd = false := by simp [nonHeader, hhd]
    have hjoin : ((hd :: bd) :: cs').join = hd :: (bd ++ cs'.join) := by simp
    rw [hjoin, List.takeWhile_cons, List.dropWhile_cons,
      if_neg (by simp [hnh]), if_neg (by simp [hnh]), ← hjoin,
      chunksOf_wf_join _ hcs]
    simp

theorem filterLines_idem (S : List Str) (ls : List Str) :
    filterLines S (filterLines S ls) = filterLines S ls := by
  have hpre_all : ∀ x ∈ ls.takeWhile nonHeader, nonHeader x = true :=
    fun x hx => List.mem_takeWhile_imp hx
  have hkept_wf : ∀ c ∈ (chunksOf (ls.dropWhile nonHeader)).filter
      (fun c => !(excludedChunk S c)), WfChunk c := by
    intro c hc
    rw [List.mem_filter] at hc
    cases hdw : ls.dropWhile nonHeader with
    | nil =>
      rw [hdw] at hc
      simp [chunksOf] at hc
    | cons h0 rest' =>
      have hh0 : isHeader h0 = true := by
        have hnh := dropWhile_head_false nonHeader ls h0 rest' hdw
        simpa [nonHeader] using hnh
      rw [hdw] at hc
      exact chunksOf_mem_wf h0 rest' hh0 c hc.1
  rw [filterLines_eq S ls, filterLines_wf S _ _ hpre_all hkept_wf, filter_idem_list]

theorem filterLines_all_body (S : List Str) (ls : List Str)
    (h : ∀ x ∈ ls, nonHeader x = true) : filterLines S ls = ls := by
  rw [filterLines_eq, List.takeWhile_eq_self_iff.mpr h, List.dropWhile_eq_nil_iff.mpr h]
  simp [chunksOf]

theorem filterLines_single_chunk (S : List Str) (hd : Str) (body : List Str)
    (hh : isHeader hd = true) (hb : ∀ l ∈ body, isHeader l = false) :
    filterLines S (hd :: body)
      = if headerSkips S hd = true then [] else hd :: body := by
  have htw : (hd :: body).takeWhile nonHeader = [] := by
    simp [List.takeWhile_cons, nonHeader, hh]
  have hdw : (hd :: body).dropWhile nonHeader = hd :: body := by
    simp [List.dropWhile_cons, nonHeader, hh]
  have htwb : body.takeWhile nonHeader = body :=
    List.takeWhile_eq_self_iff.mpr (by intro x hx; simp [nonHeader, hb x hx])
  have hdwb : body.dropWhile nonHeader = [] :=
    List.dropWhile_eq_nil_iff.mpr (by intro x hx; simp [nonHeader, hb x hx])
  rw [filterLines_eq, htw, hdw, chunksOf_cons, htwb, hdwb, List.filter_cons]
  have hex : excludedChunk S (hd :: body) = headerSkips S hd := rfl
  rw [hex]
  by_cases hsk : headerSkips S hd = true
  · simp [hsk, chunksOf]
  · have hsk' : headerSkips S hd = false := by simpa using hsk
    simp [hsk', chunksOf]

/- ### Bridge lemmas at the string level -/

theorem filter_of_strip_nil (diff : Str) (S : List Str) (h : pyStrip diff = []) :
    filter_excluded_files diff S = diff := by
  simp only [filter_excluded_files]
  rw [if_pos h]

theorem filter_of_strip_ne (diff : Str) (S : List Str) (h : ¬(pyStrip diff = [])) :
    filter_excluded_files diff S
      = joinNL (filterLines S (splitlines diff)) ++ ['\n'] := by
  simp only [filter_excluded_files]
  rw [if_neg h]

theorem strip_ne_of_header_line (diff : Str) (l : Str)
    (hl : l ∈ splitlines diff) (hh : isHeader l = true) : ¬(pyStrip diff = []) := by
  obtain ⟨r, hr⟩ := (pyStartsWith_iff l headerLit).mp hh
  have hdl : 'd' ∈ l := by
    rw [hr]
    exact List.mem_append.mpr (Or.inl (by decide))
  have hdmem : 'd' ∈ diff := splitlines_mem_chars diff l hl 'd' hdl
  intro hstrip
  have hsp := (pyStrip_eq_nil_iff diff).mp hstrip 'd' hdmem
  exact absurd hsp (by decide)

/- ### The claims -/

/-- C1: for an input whose first line is a `diff --git ` header, the
filter returns exactly the in-order concatenation of the non-excluded
chunks, each chunk's lines in order, joined by newlines and terminated
by exactly one trailing newline; chunks are kept or dropped whole. -/
theorem c1_filter_concat_kept_chunks (diff : Str) (S : List Str)
    (h : isHeader ((splitlines diff).headD []) = true) :
    filter_excluded_files diff S
      = joinNL (((chunksOf (splitlines diff)).filter
          (fun c => !(excludedChunk S c))).join) ++ ['\n'] := by
  cases hsp : splitlines diff with
  | nil =>
    rw [hsp] at h
    exact absurd h (by decide)
  | cons l ls =>
    rw [hsp] at h
    have hh : isHeader l = true := by simpa using h
    have hne : ¬(pyStrip diff = []) :=
      strip_ne_of_header_line diff l (by rw [hsp]; exact List.mem_cons_self l ls) hh
    rw [filter_of_strip_ne diff S hne, hsp]
    congr 2
    rw [filterLines_eq]
    have htw : (l :: ls).takeWhile nonHeader = [] := by
      simp [List.takeWhile_cons, nonHeader, hh]
    have hdw : (l :: ls).dropWhile nonHeader = l :: ls := by
      simp [List.dropWhile_cons, nonHeader, hh]
    rw [htw, hdw]
    simp

/-- C1 witness: a two-chunk diff with the `.png` chunk excluded. -/
theorem c1_witness :
    isHeader ((splitlines (("diff --git a/logo.png b/logo.png\n+x\ndiff --git a/main.go b/main.go\n+y").data)).headD []) = true
    ∧ filter_excluded_files
        (("diff --git a/logo.png b/logo.png\n+x\ndiff --git a/main.go b/main.go\n+y").data)
        [(".png").data]
      = joinNL (((chunksOf (splitlines (("diff --git a/logo.png b/logo.png\n+x\ndiff --git a/main.go b/main.go\n+y").data))).filter
          (fun c => !(excludedChunk [(".png").data] c))).join) ++ ['\n'] :=
  ⟨by decide, c1_filter_concat_kept_chunks _ _ (by decide)⟩

/-- C2 counterexample: a non-whitespace diff with no header line is
returned in full (plus the trailing newline), not reduced to a single
newline. -/
theorem c2_counterexample :
    filter_excluded_files (("hello").data) [(".png").data] = ("hello\n").data
    ∧ ¬(("hello\n").data = ['\n'])
    ∧ (∀ l ∈ splitlines (("hello").data), isHeader l = false)
    ∧ ¬(pyStrip (("hello").data) = []) :=
  ⟨by decide, by decide, by decide, by decide⟩

/-- C2 amended: input lines preceding the first header line are kept,
not dropped (the scan starts with the skip flag false, so they are
finalized into the output ahead of the surviving chunks): on any
non-whitespace input the filter output is the pre-header lines followed
by the concatenation of the non-excluded chunks, joined with newlines
and one trailing newline; in particular, for input with no header line
at all, the filter returns all input lines rejoined with a single
trailing newline. -/
theorem c2_amended_preamble_kept (diff : Str) (S : List Str)
    (hne : ¬(pyStrip diff = [])) :
    filter_excluded_files diff S
      = joinNL ((splitlines diff).takeWhile nonHeader
          ++ ((chunksOf ((splitlines diff).dropWhile nonHeader)).filter
                (fun c => !(excludedChunk S c))).join) ++ ['\n']
    ∧ ((∀ l ∈ splitlines diff, isHeader l = false) →
        filter_excluded_files diff S = joinNL (splitlines diff) ++ ['\n']) := by
  constructor
  · rw [filter_of_strip_ne diff S hne, filterLines_eq]
  · intro hnh
    rw [filter_of_strip_ne diff S hne]
    congr 2
    apply filterLines_all_body
    intro x hx
    simp [nonHeader, hnh x hx]

/-- C2 amended, witness: in `intro\ndiff --git a/x.png b/x.png\n+z`
with the `.png` chunk excluded, the pre-header line `intro` is kept,
and the headerless diff `hello` comes back in full. -/
theorem c2_amended_witness :
    ¬(pyStrip (("intro\ndiff --git a/x.png b/x.png\n+z").data) = [])
    ∧ filter_excluded_files (("intro\ndiff --git a/x.png b/x.png\n+z").data)
        [(".png").data] = ("intro\n").data
    ∧ filter_excluded_files (("hello").data) [(".png").data]
        = joinNL (splitlines (("hello").data)) ++ ['\n'] := by
  refine ⟨by decide, ?_, ?_⟩
  · have h := (c2_amended_preamble_kept
      (("intro\ndiff --git a/x.png b/x.png\n+z").data) [(".png").data] (by decide)).1
    exact h.trans (by decide)
  · exact (c2_amended_preamble_kept (("hello").data) [(".png").data]
      (by decide)).2 (by decide)

/-- C4: filtering is idempotent: filtering an already-filtered diff with
the same suffix policy returns it unchanged. -/
theorem c4_filter_idempotent (diff : Str) (S : List Str) :
    filter_excluded_files (filter_excluded_files diff S) S
      = filter_excluded_files diff S := by
  by_cases h1 : pyStrip diff = []
  · rw [filter_of_strip_nil diff S h1]
    exact filter_of_strip_nil diff S h1
  · by_cases h2 : pyStrip (filter_excluded_files diff S) = []
    · exact filter_of_strip_nil _ S h2
    · rw [filter_of_strip_ne _ S h2, filter_of_strip_ne diff S h1]
      have hkne : ¬(filterLines S (splitlines diff) = []) := by
        intro hk
        apply h2
        rw [filter_of_strip_ne diff S h1, hk]
        decide
      have hnl : ∀ l ∈ filterLines S (splitlines diff), ¬('\n' ∈ l) := by
        intro l hl
        exact splitlines_mem_no_nl diff l (filterLines_mem S (splitlines diff) l hl)
      rw [splitlines_joinNL _ hkne hnl, filterLines_idem]

/-- C7: empty or whitespace-only input is returned unchanged, with no
trailing-newline normalization. -/
theorem c7_whitespace_unchanged (diff : Str) (S : List Str)
    (h : ∀ c ∈ diff, isSpace c = true) :
    filter_excluded_files diff S = diff :=
  filter_of_strip_nil diff S ((pyStrip_eq_nil_iff diff).mpr h)

/-- C7 witness: the empty string and a whitespace-only string. -/
theorem c7_witness :
    (∀ c ∈ ([] : Str), isSpace c = true)
    ∧ filter_excluded_files [] [(".png").data] = []
    ∧ (∀ c ∈ ("  \n ").data, isSpace c = true)
    ∧ filter_excluded_files (("  \n ").data) [(".png").data] = ("  \n ").data :=
  ⟨by decide, c7_whitespace_unchanged _ _ (by decide), by decide,
    c7_whitespace_unchanged _ _ (by decide)⟩

/-- C5: a chunk is dropped exactly when its header line, split on
whitespace, has at least 4 tokens and token 3 or token 4 (1-indexed),
with its first two characters removed, ends with some listed suffix by
exact (case-sensitive) trailing-substring match; a header with fewer
than 4 tokens leaves the chunk kept. -/
theorem c5_exclusion_match (S : List Str) (hd : Str) (body : List Str)
    (hh : isHeader hd = true) (hb : ∀ l ∈ body, isHeader l = false) :
    (filterLines S (hd :: body) = [] ∨ filterLines S (hd :: body) = hd :: body)
    ∧ (filterLines S (hd :: body) = []
        ↔ 4 ≤ (pySplit hd).length
          ∧ ∃ ext ∈ S,
              (∃ p, ((pySplit hd).getD 2 []).drop 2 = p ++ ext)
              ∨ (∃ p, ((pySplit hd).getD 3 []).drop 2 = p ++ ext)) := by
  have hsingle := filterLines_single_chunk S hd body hh hb
  have hiff : headerSkips S hd = true
      ↔ 4 ≤ (pySplit hd).length
        ∧ ∃ ext ∈ S,
            (∃ p, ((pySplit hd).getD 2 []).drop 2 = p ++ ext)
            ∨ (∃ p, ((pySplit hd).getD 3 []).drop 2 = p ++ ext) := by
    unfold headerSkips
    by_cases hlen : 4 ≤ (pySplit hd).length
    · rw [if_pos hlen]
      simp only [List.any_eq_true, Bool.or_eq_true]
      constructor
      · rintro ⟨ext, hext, hab⟩
        refine ⟨hlen, ext, hext, ?_⟩
        rcases hab with ha | hb2
        · exact Or.inl ((pyEndsWith_iff _ _).mp ha)
        · exact Or.inr ((pyEndsWith_iff _ _).mp hb2)
      · rintro ⟨_, ext, hext, hor⟩
        refine ⟨ext, hext, ?_⟩
        rcases hor with ⟨p, hp⟩ | ⟨p, hp⟩
        · exact Or.inl ((pyEndsWith_iff _ _).mpr ⟨p, hp⟩)
        · exact Or.inr ((pyEndsWith_iff _ _).mpr ⟨p, hp⟩)
    · rw [if_neg hlen]
      simp [hlen]
  constructor
  · by_cases hsk : headerSkips S hd = true
    · exact Or.inl (by rw [hsingle, if_pos hsk])
    · exact Or.inr (by rw [hsingle, if_neg hsk])
  · constructor
    · intro hnil
      rw [hsingle] at hnil
      by_cases hsk : headerSkips S hd = true
      · exact hiff.mp hsk
      · rw [if_neg hsk] at hnil
        exact absurd hnil (List.cons_ne_nil hd body)
    · intro hcond
      rw [hsingle, if_pos (hiff.mpr hcond)]

/-- C5 witness: a `.png` chunk is dropped; a truncated header with only
3 tokens keeps its chunk. -/
theorem c5_witness :
    filterLines [(".png").data]
      [("diff --git a/logo.png b/logo.png").data, ("+x").data] = []
    ∧ filterLines [(".png").data] [("diff --git malformed").data, ("+x").data]
        = [("diff --git malformed").data, ("+x").data] := by
  constructor
  · exact (c5_exclusion_match [(".png").data] (("diff --git a/logo.png b/logo.png").data)
      [("+x").data] (by decide) (by decide)).2.mpr
      ⟨by decide, (".png").data, by decide, Or.inl ⟨("logo").data, by decide⟩⟩
  · have hthm := c5_exclusion_match [(".png").data] (("diff --git malformed").data)
      [("+x").data] (by decide) (by decide)
    rcases hthm.1 with hnil | hkeep
    · exact absurd (hthm.2.mp hnil).1 (by decide)
    · exact hkeep

/-- C6: a line opens a chunk exactly when it literally begins with
`diff --git `; the substring occurring anywhere later in a non-header
line never splits the enclosing chunk. -/
theorem c6_header_anchor :
    (∀ l : Str, isHeader l = true ↔ ∃ r, l = headerLit ++ r)
    ∧ (∀ (hd : Str) (body : List Str), isHeader hd = true →
        (∀ l ∈ body, isHeader l = false) → chunksOf (hd :: body) = [hd :: body]) := by
  constructor
  · intro l
    exact pyStartsWith_iff l headerLit
  · intro hd body hh hb
    rw [chunksOf_cons]
    have htwb : body.takeWhile nonHeader = body :=
      List.takeWhile_eq_self_iff.mpr (by intro x hx; simp [nonHeader, hb x hx])
    have hdwb : body.dropWhile nonHeader = [] :=
      List.dropWhile_eq_nil_iff.mpr (by intro x hx; simp [nonHeader, hb x hx])
    rw [htwb, hdwb]
    rfl

/-- C6 witness: a body line that contains the literal `diff --git `
without starting with it stays inside its enclosing chunk. -/
theorem c6_witness :
    chunksOf [("diff --git a/readme.md b/readme.md").data,
        ("+quoted: diff --git a/x b/x").data]
      = [[("diff --git a/readme.md b/readme.md").data,
          ("+quoted: diff --git a/x b/x").data]] :=
  c6_header_anchor.2 _ _ (by decide) (by decide)

/-- C10: when the policy contains the empty suffix, a chunk survives
exactly when its header has fewer than 4 whitespace tokens (every path
ends with the empty suffix, so every parseable header is skipped). -/
theorem c10_empty_suffix (S : List Str) (hd : Str) (body : List Str)
    (hS : [] ∈ S) (hh : isHeader hd = true)
    (hb : ∀ l ∈ body, isHeader l = false) :
    filterLines S (hd :: body)
      = if 4 ≤ (pySplit hd).length then [] else hd :: body := by
  rw [filterLines_single_chunk S hd body hh hb]
  by_cases hlen : 4 ≤ (pySplit hd).length
  · rw [if_pos hlen]
    have hsk : headerSkips S hd = true := by
      unfold headerSkips
      rw [if_pos hlen]
      refine List.any_eq_true.mpr ⟨[], hS, ?_⟩
      simp [pyEndsWith]
      omega
    rw [if_pos hsk]
  · rw [if_neg hlen]
    have hsk : headerSkips S hd = false := by
      unfold headerSkips
      rw [if_neg hlen]
    rw [if_neg (by simp [hsk])]

/-- C10 witness: with the empty suffix in the policy a well-formed
header chunk is dropped, while a 3-token header chunk survives. -/
theorem c10_witness :
    filterLines [[], (".png").data]
      [("diff --git a/main.go b/main.go").data, ("+y").data] = []
    ∧ filterLines [([] : Str)] [("diff --git malformed").data]
        = [("diff --git malformed").data] := by
  constructor
  · have h := c10_empty_suffix [[], (".png").data]
      (("diff --git a/main.go b/main.go").data) [("+y").data]
      (by decide) (by decide) (by decide)
    rw [if_pos (by decide :
      4 ≤ (pySplit (("diff --git a/main.go b/main.go").data)).length)] at h
    exact h
  · have h := c10_empty_suffix [([] : Str)] (("diff --git malformed").data) []
      (by decide) (by decide) (by decide)
    rw [if_neg (by decide :
      ¬(4 ≤ (pySplit (("diff --git malformed").data)).length))] at h
    exact h

/-- C9: the decision layer exits 0 exactly when the filtered diff is
empty or whitespace-only or the verdict contains `APPROVED` as a
substring, and exits 1 in every other case. -/
theorem c9_exit_code (filteredDiff feedback : Str) :
    (decisionExitCode filteredDiff feedback = 0
      ↔ (∀ c ∈ filteredDiff, isSpace c = true)
        ∨ ∃ q r, feedback = q ++ approvedLit ++ r)
    ∧ (decisionExitCode filteredDiff feedback = 0
        ∨ decisionExitCode filteredDiff feedback = 1) := by
  unfold decisionExitCode
  by_cases h1 : pyStrip filteredDiff = []
  · rw [if_pos h1]
    refine ⟨⟨fun _ => Or.inl ((pyStrip_eq_nil_iff filteredDiff).mp h1), fun _ => rfl⟩,
      Or.inl rfl⟩
  · rw [if_neg h1]
    by_cases h2 : pyContains feedback approvedLit = true
    · rw [if_pos h2]
      refine ⟨⟨fun _ => Or.inr ((pyContains_iff feedback approvedLit).mp h2),
        fun _ => rfl⟩, Or.inl rfl⟩
    · rw [if_neg h2]
      refine ⟨⟨fun h0 => absurd h0 one_ne_zero, ?_⟩, Or.inr rfl⟩
      intro hor
      rcases hor with hws | hap
      · exact absurd ((pyStrip_eq_nil_iff filteredDiff).mpr hws) h1
      · exact absurd ((pyContains_iff feedback approvedLit).mpr hap) h2

/- ### Refinement and error analysis of the dynamically-typed scan -/

theorem exceptBind_ok {α β : Type} (x : α) (f : α → Except PyError β) :
    (do
      let a ← (Except.ok x : Except PyError α)
      f a) = f x := rfl

theorem exceptBind_error {α β : Type} (e : PyError) (f : α → Except PyError β) :
    (do
      let a ← (Except.error e : Except PyError α)
      f a) = Except.error e := rfl

theorem indexE_lt (l : List Str) (i : Nat) (h : i < l.length) :
    indexE l i = Except.ok (l.getD i []) := by
  unfold indexE
  rw [List.get?_eq_get h]
  simp [List.getD_eq_get?, List.get?_eq_get h, List.getElem?_eq_getElem h]

theorem scanExts_cons_str (a b e : Str) (rest : List PyVal) :
    scanExts a b (PyVal.str e :: rest)
      = if pyEndsWith a e = true then Except.ok true
        else if pyEndsWith b e = true then Except.ok true
        else scanExts a b rest := rfl

theorem scanExts_cons_nonStr (a b : Str) (rest : List PyVal) :
    scanExts a b (PyVal.nonStr :: rest) = Except.error PyError.typeError := rfl

theorem scanExts_strs (a b : Str) :
    ∀ (S : List Str), scanExts a b (S.map PyVal.str)
      = Except.ok (S.any (fun ext => pyEndsWith a ext || pyEndsWith b ext)) := by
  intro S
  induction S with
  | nil => rfl
  | cons e S' ih =>
    rw [List.map_cons, scanExts_cons_str]
    by_cases ha : pyEndsWith a e = true
    · rw [if_pos ha]
      simp [ha]
    · have ha' : pyEndsWith a e = false := by simpa using ha
      rw [if_neg ha]
      by_cases hb2 : pyEndsWith b e = true
      · rw [if_pos hb2]
        simp [ha', hb2]
      · have hb' : pyEndsWith b e = false := by simpa using hb2
        rw [if_neg hb2, ih]
        simp [ha', hb']

theorem headerSkipsE_strs (S : List Str) (line : Str) :
    headerSkipsE (S.map PyVal.str) line = Except.ok (headerSkips S line) := by
  unfold headerSkipsE headerSkips
  by_cases hlen : 4 ≤ (pySplit line).length
  · rw [if_pos hlen, if_pos hlen, indexE_lt _ _ (by omega), exceptBind_ok,
      indexE_lt _ _ (by omega), exceptBind_ok, scanExts_strs]
  · rw [if_neg hlen, if_neg hlen]
    rfl

theorem filterLinesEGo_nil (E : List PyVal) (kept cur : List Str) (skip : Bool) :
    filterLinesEGo E kept cur skip [] = Except.ok (finalize kept cur skip) := rfl

theorem filterLinesEGo_header (E : List PyVal) (kept cur : List Str) (skip : Bool)
    (l : Str) (ls : List Str) (h : isHeader l = true) :
    filterLinesEGo E kept cur skip (l :: ls)
      = (do
          let sk ← headerSkipsE E l
          filterLinesEGo E (finalize kept cur skip) [l] sk ls) := by
  simp only [filterLinesEGo]
  rw [if_pos h]

theorem filterLinesEGo_body (E : List PyVal) (kept cur : List Str) (skip : Bool)
    (l : Str) (ls : List Str) (h : isHeader l = false) :
    filterLinesEGo E kept cur skip (l :: ls)
      = filterLinesEGo E kept (cur ++ [l]) skip ls := by
  simp only [filterLinesEGo]
  rw [if_neg (by simp [h])]

theorem filterLinesEGo_strs (S : List Str) :
    ∀ (ls kept cur : List Str) (skip : Bool),
      filterLinesEGo (S.map PyVal.str) kept cur skip ls
        = Except.ok (filterLinesGo S kept cur skip ls) := by
  intro ls
  induction ls with
  | nil => intro kept cur skip; rfl
  | cons l ls' ih =>
    intro kept cur skip
    by_cases h : isHeader l = true
    · rw [filterLinesEGo_header _ _ _ _ _ _ h, headerSkipsE_strs, exceptBind_ok,
        ih, filterLinesGo_header _ _ _ _ _ _ h]
    · have h' : isHeader l = false := by simpa using h
      rw [filterLinesEGo_body _ _ _ _ _ _ h', ih, filterLinesGo_body _ _ _ _ _ _ h']

/-- C8: on a string diff and string suffixes the scan is total: the
dynamically-typed embedding (in which `endswith` and list indexing can
raise) reaches no error and agrees with the pure filter. -/
theorem c8_filter_total (diff : Str) (S : List Str) :
    filterE diff (S.map PyVal.str) = Except.ok (filter_excluded_files diff S) := by
  by_cases h : pyStrip diff = []
  · rw [filter_of_strip_nil diff S h]
    simp only [filterE]
    rw [if_pos h]
  · rw [filter_of_strip_ne diff S h]
    simp only [filterE]
    rw [if_neg h, filterLinesEGo_strs, exceptBind_ok]
    rfl

theorem headerSkipsE_error_iff (E : List PyVal) (line : Str) :
    (∃ e, headerSkipsE E line = Except.error e)
      ↔ 4 ≤ (pySplit line).length
        ∧ ∃ e, scanExts (((pySplit line).getD 2 []).drop 2)
            (((pySplit line).getD 3 []).drop 2) E = Except.error e := by
  unfold headerSkipsE
  by_cases hlen : 4 ≤ (pySplit line).length
  · rw [if_pos hlen, indexE_lt _ _ (by omega), exceptBind_ok,
      indexE_lt _ _ (by omega), exceptBind_ok]
    simp [hlen]
  · rw [if_neg hlen]
    have hp : (pure false : Except PyError Bool) = Except.ok false := rfl
    rw [hp]
    simp [hlen]

theorem filterLinesEGo_error_iff (E : List PyVal) :
    ∀ (ls kept cur : List Str) (skip : Bool),
      (∃ e, filterLinesEGo E kept cur skip ls = Except.error e)
        ↔ ∃ l ∈ ls, isHeader l = true ∧ ∃ e, headerSkipsE E l = Except.error e := by
  intro ls
  induction ls with
  | nil =>
    intro kept cur skip
    rw [filterLinesEGo_nil]
    simp
  | cons l ls' ih =>
    intro kept cur skip
    by_cases h : isHeader l = true
    · rw [filterLinesEGo_header _ _ _ _ _ _ h]
      cases hsk : headerSkipsE E l with
      | error e =>
        rw [exceptBind_error]
        constructor
        · intro _
          exact ⟨l, List.mem_cons_self l ls', h, e, hsk⟩
        · intro _
          exact ⟨e, rfl⟩
      | ok sk =>
        rw [exceptBind_ok, ih]
        constructor
        · rintro ⟨l', hl', hh', he'⟩
          exact ⟨l', List.mem_cons_of_mem l hl', hh', he'⟩
        · rintro ⟨l', hl', hh', e, he'⟩
          rcases List.mem_cons.mp hl' with rfl | hl''
          · rw [hsk] at he'
            cases he'
          · exact ⟨l', hl'', hh', e, he'⟩
    · have h' : isHeader l = false := by simpa using h
      rw [filterLinesEGo_body _ _ _ _ _ _ h', ih]
      constructor
      · rintro ⟨l', hl', hh', he'⟩
        exact ⟨l', List.mem_cons_of_mem l hl', hh', he'⟩
      · rintro ⟨l', hl', hh', he'⟩
        rcases List.mem_cons.mp hl' with rfl | hl''
        · rw [h'] at hh'
          cases hh'
        · exact ⟨l', hl'', hh', he'⟩

/-- C3 amended: the filter performs no eager validation of the suffix
list; it raises exactly when some header line of the (non-whitespace)
diff has at least 4 tokens and the suffix scan on that header's paths
raises — i.e. lazily, mid-scan, at a header line. -/
theorem c3_lazy_failure (diff : Str) (E : List PyVal) :
    (∃ e, filterE diff E = Except.error e)
      ↔ ¬(pyStrip diff = [])
        ∧ ∃ l ∈ splitlines diff, isHeader l = true
            ∧ 4 ≤ (pySplit l).length
            ∧ ∃ e, scanExts (((pySplit l).getD 2 []).drop 2)
                (((pySplit l).getD 3 []).drop 2) E = Except.error e := by
  simp only [filterE]
  by_cases h : pyStrip diff = []
  · rw [if_pos h]
    simp [h]
  · rw [if_neg h]
    have hbind : ∀ (r : Except PyError (List Str)) (g : List Str → Str),
        (∃ e, (do
            let kept ← r
            (pure (g kept) : Except PyError Str)) = Except.error e)
          ↔ ∃ e, r = Except.error e := by
      intro r g
      cases r with
      | ok k =>
        rw [exceptBind_ok]
        have h1 : (pure (g k) : Except PyError Str) = Except.ok (g k) := rfl
        rw [h1]
        simp
      | error e =>
        rw [exceptBind_error]
        exact ⟨fun _ => ⟨e, rfl⟩, fun _ => ⟨e, rfl⟩⟩
    rw [hbind, filterLinesEGo_error_iff]
    constructor
    · rintro ⟨l, hl, hh, he⟩
      have hchar := (headerSkipsE_error_iff E l).mp he
      exact ⟨h, l, hl, hh, hchar.1, hchar.2⟩
    · rintro ⟨-, l, hl, hh, hlen, he⟩
      exact ⟨l, hl, hh, (headerSkipsE_error_iff E l).mpr ⟨hlen, he⟩⟩

/-- C3 counterexample: with a non-string suffix entry the filter is not
rejected eagerly — it succeeds on a header-free diff — and it fails
lazily with a `TypeError` while processing a header line. -/
theorem c3_counterexample :
    filterE (("hello").data) [PyVal.nonStr] = Except.ok (("hello\n").data)
    ∧ filterE (("diff --git a/f b/f").data) [PyVal.nonStr]
        = Except.error PyError.typeError :=
  ⟨rfl, rfl⟩

end Reviewer
